import Mathlib

/-!
Shallow embedding of the cache simulator `src/csim.c` (juntaow0/CacheSim).

Modelling conventions:
* C `long` (64-bit) and `int` (32-bit) values are modelled as unbounded `Int`;
  two's-complement wrapping is applied explicitly (`wrap32`, `wrap64`) at the
  points where the C program performs width-sensitive operations (the bitwise
  mask computations in `findTag` / `findSet`).
* Variable-count shifts are modelled with the de-facto semantics of the
  program's target (gcc on x86-64): the shift count is reduced modulo the
  operand width (32 for `int`, 64 for `long`), and a signed left shift wraps
  in two's complement.  This matters because `findTag` shifts the 32-bit
  constant `~0` by `tbits = 64 - sbits - bbits`, which reaches counts >= 32
  for legal configurations.
* The statistics counters (`struct cachestats`) only ever increase by 1 per
  sub-access; they are modelled as unbounded `Int` (no trace modelled here
  approaches `INT_MAX`).
* A cache set (`struct cLine *` plus the `lines` bound) is modelled as a
  `List CLine` whose length is the `lines`/`perset` bound; the whole cache
  (`struct cLine **` plus the set count) as a `List (List CLine)`.
  An out-of-range write (`List.set`) is a no-op; in the simulated program all
  accesses are in range.
-/

/-- C `struct cLine`: one cache slot, no payload.  `valid` is an `int` used
as a boolean (only 0/1 are ever stored), `tag`, `recent` and `freq` are
`long`. -/
structure CLine where
  valid : Bool
  tag : Int
  recent : Int
  freq : Int
deriving DecidableEq, Repr

/-- C `struct cachestats`, in declaration order. -/
structure CacheStats where
  miss_count : Int
  hit_count : Int
  eviction_count : Int
deriving DecidableEq, Repr

/-- The zero-initialised line `{0,0,0,0}` used by `buildCache`. -/
def initLine : CLine := ⟨false, 0, 0, 0⟩

/-- C `buildCache(lines, sets)`: a cache of `sets` sets, each an array of
`lines` zero-initialised lines. -/
def buildCache (lines sets : Nat) : List (List CLine) :=
  List.replicate sets (List.replicate lines initLine)

/-- C `sameTag`: equality test on two tags (returns 1/0, modelled as `Bool`). -/
def sameTag (tag1 tag2 : Int) : Bool := tag1 == tag2

/-- The `while (i < lines)` loop of C `surveySet`, iterating over the
remaining lines with the loop state carried explicitly:
`minLRU`, `minLFU` (running minima, both initialised to `clock` by the
caller), `minLRUIndex`, `minLFUIndex` (their indices, initialised to 0) and
`i` (the index of the line at the head of the remaining list).

`Sum.inl (i, newLine, isHit)` models the `break` with `stored = 1`: the line
at absolute index `i` is replaced by `newLine`; `isHit = true` for the
tag-match branch, `false` for the empty-slot branch.  `Sum.inr
(minLRUIndex, minLFUIndex)` models falling off the loop with `stored = 0`.

Note the LFU tie-break: the C code tests `singleSet[i].recent < minLRU`
where `minLRU` may already have been lowered by the LRU update earlier in
the same iteration; this is mirrored exactly (`p1.1` below). -/
def surveyScan (tag clock : Int) :
    List CLine → Int → Int → Nat → Nat → Nat → (Nat × CLine × Bool) ⊕ (Nat × Nat)
  | [], _, _, minLRUIndex, minLFUIndex, _ => Sum.inr (minLRUIndex, minLFUIndex)
  | line :: rest, minLRU, minLFU, minLRUIndex, minLFUIndex, i =>
    if line.valid then
      if sameTag line.tag tag then
        Sum.inl (i, { line with recent := clock, freq := line.freq + 1 }, true)
      else
        let p1 : Int × Nat :=
          if line.recent < minLRU then (line.recent, i) else (minLRU, minLRUIndex)
        let p2 : Int × Nat :=
          if line.freq < minLFU then (line.freq, i)
          else if line.freq == minLFU then
            (minLFU, if line.recent < p1.1 then i else minLFUIndex)
          else (minLFU, minLFUIndex)
        surveyScan tag clock rest p1.1 p2.1 p1.2 p2.2 (i + 1)
    else
      Sum.inl (i, { line with valid := true, tag := tag, recent := clock }, false)

/-- Result of C `surveySet`: the updated line array, the updated statistics
and the verbose `result` string. -/
structure SurveyOut where
  set : List CLine
  stats : CacheStats
  result : String
deriving DecidableEq, Repr

/-- C `surveySet(singleSet, stats, lines, tag, clock, policy, result)`.
The scan loop is `surveyScan` (with `minLRU = minLFU = clock` and indices 0);
afterwards, on a hit the hit counter is bumped, on an install the miss
counter, and if the loop finished with `stored = 0` the victim selected by
`policy` (`LRU = 0`, `LFU = 1`, `finalIndex` stays 0 otherwise) is
overwritten with the new tag, `recent = clock` and `freq = 0` (its `valid`
field is not written), bumping both the miss and the eviction counter.
Note the empty-slot install writes `valid`, `tag`, `recent` but leaves the
slot's `freq` as it was, exactly as the C code does. -/
def surveySet (singleSet : List CLine) (stats : CacheStats) (tag clock : Int)
    (policy : Int) : SurveyOut :=
  match surveyScan tag clock singleSet clock clock 0 0 0 with
  | Sum.inl (i, newLine, true) =>
      ⟨singleSet.set i newLine,
       { stats with hit_count := stats.hit_count + 1 }, "hit "⟩
  | Sum.inl (i, newLine, false) =>
      ⟨singleSet.set i newLine,
       { stats with miss_count := stats.miss_count + 1 }, "miss "⟩
  | Sum.inr (minLRUIndex, minLFUIndex) =>
      let finalIndex := if policy = 0 then minLRUIndex
                        else if policy = 1 then minLFUIndex else 0
      let victim := singleSet.getD finalIndex initLine
      ⟨singleSet.set finalIndex { victim with tag := tag, recent := clock, freq := 0 },
       { stats with miss_count := stats.miss_count + 1,
                    eviction_count := stats.eviction_count + 1 }, "evict "⟩

/-- Two's-complement wrap of an integer to a signed 32-bit value. -/
def wrap32 (x : Int) : Int := Int.emod (x + 2147483648) 4294967296 - 2147483648

/-- Two's-complement wrap of an integer to a signed 64-bit value. -/
def wrap64 (x : Int) : Int :=
  Int.emod (x + 9223372036854775808) 18446744073709551616 - 9223372036854775808

/-- C `~x` on a 32-bit `int` (two's complement: `~x = -x - 1`). -/
def bnot32 (x : Int) : Int := wrap32 (-x - 1)

/-- C `x << c` on a 32-bit `int` with a runtime count: on x86-64 the count is
taken mod 32, and the signed result wraps. -/
def shl32 (x c : Int) : Int := wrap32 (x * 2 ^ (Int.emod c 32).toNat)

/-- C `x >> c` on a 64-bit signed `long` with a runtime count: the count is
taken mod 64; the arithmetic right shift is floor division by a power of 2. -/
def sar64 (x c : Int) : Int := Int.fdiv x (2 ^ (Int.emod c 64).toNat)

/-- Bitwise and of two natural numbers, bit by bit, with explicit fuel
(64 bits suffice for all operands arising here). -/
def natLand : Nat → Nat → Nat → Nat
  | 0, _, _ => 0
  | f + 1, a, b => (a % 2) * (b % 2) + 2 * natLand f (a / 2) (b / 2)

/-- C `x & y` on 64-bit `long`s: bitwise and of the two's-complement bit
patterns, read back as a signed 64-bit value. -/
def land64 (x y : Int) : Int :=
  wrap64 (Int.ofNat (natLand 64 (Int.emod x 18446744073709551616).toNat
    (Int.emod y 18446744073709551616).toNat))

/-- C `findTag(address, sbits, bbits)`: `tbits = 64 - sbits - bbits`;
`long mask = ~((~0) << tbits)` computed on 32-bit `int`s (this is where the
shift count can reach and exceed 32); `tag = (address >> (sbits+bbits)) & mask`. -/
def findTag (address sbits bbits : Int) : Int :=
  let tbits := 64 - sbits - bbits
  let mask := bnot32 (shl32 (bnot32 0) tbits)
  land64 (sar64 address (sbits + bbits)) mask

/-- C `findSet(address, sbits, bbits)`: `int mask = ~((~0) << sbits)`;
`setNumber = (address >> bbits) & mask`. -/
def findSet (address sbits bbits : Int) : Int :=
  let mask := bnot32 (shl32 (bnot32 0) sbits)
  land64 (sar64 address bbits) mask

/-- C `cacheSim`: one call to `surveySet` on set `setNumber`; for a Modify
operation (`'M'`) the local clock is incremented and `surveySet` is called a
second time with the same tag and set.  Returns the updated cache and
statistics. -/
def cacheSim (cache : List (List CLine)) (stats : CacheStats) (tag setNumber : Int)
    (clock : Int) (operation : Char) (policy : Int) :
    List (List CLine) × CacheStats :=
  let idx := setNumber.toNat
  let o1 := surveySet (cache.getD idx []) stats tag clock policy
  let cache1 := cache.set idx o1.set
  if operation = 'M' then
    let o2 := surveySet o1.set o1.stats tag (clock + 1) policy
    (cache1.set idx o2.set, o2.stats)
  else
    (cache1, o1.stats)

/-- One already-filtered data-access trace record (operation character and
64-bit address; the byte count is ignored by the simulation). -/
structure TraceRec where
  op : Char
  addr : Int
deriving DecidableEq, Repr

/-- State of the replay loop in C `main`: the logical clock, the cache and
the running statistics. -/
structure SimState where
  clock : Int
  cache : List (List CLine)
  stats : CacheStats
deriving DecidableEq, Repr

/-- One iteration of the trace-reading loop in C `main` for an accepted data
record: increment the clock, decompose the address, run `cacheSim`.  (The
local clock increment inside `cacheSim` for `'M'` does not feed back into the
loop's clock, exactly as in the C code.) -/
def replayStep (sbits bbits : Int) (policy : Int) (st : SimState) (r : TraceRec) :
    SimState :=
  let clock := st.clock + 1
  let tag := findTag r.addr sbits bbits
  let setNumber := findSet r.addr sbits bbits
  let out := cacheSim st.cache st.stats tag setNumber clock r.op policy
  ⟨clock, out.1, out.2⟩

/-- The initial state of C `main`: clock 0, `buildCache(perset, 1 << sbits)`,
all counters 0. -/
def initState (sbits : Int) (perset : Nat) : SimState :=
  ⟨0, buildCache perset (2 ^ sbits.toNat), ⟨0, 0, 0⟩⟩

/-- Replay of a list of already-filtered data-access records from the fresh
cache, as C `main` does. -/
def replayTrace (sbits bbits : Int) (perset : Nat) (policy : Int)
    (recs : List TraceRec) : SimState :=
  recs.foldl (replayStep sbits bbits policy) (initState sbits perset)

/-- Modelled from the spec: the number of simulated sub-accesses contributed
by one trace record (a Modify counts twice, any other data access once). -/
def subAccessWeight (r : TraceRec) : Int := if r.op = 'M' then 2 else 1

/-- Modelled from the spec (section 4.1): the documented address
decomposition `tag(address) = (address >> (sbits+bbits)) & mask(64-sbits-bbits)`
with `mask(n)` the value with exactly the low `n` bits set, over the
unsigned 64-bit address. -/
def specTagFormula (address sbits bbits : Int) : Int :=
  Int.ofNat (natLand 64 ((Int.emod address 18446744073709551616).toNat /
    2 ^ (sbits + bbits).toNat) (2 ^ (64 - sbits - bbits).toNat - 1))

/-- Number of valid lines in a set. -/
def validCount (s : List CLine) : Nat := s.countP (fun l => l.valid)

/-- Invariant of a single cache set with respect to an upper clock bound `v`
(the clock value of the next lookup that can reach this set is at least `v`):
the valid lines form a contiguous front of the array, every invalid line
still holds its zero-initialised contents, every valid line's `recent` stamp
is at most `v`, and at most one valid line carries the extremal stamp `v`
(only the store half of a Modify can have written it). -/
structure SetInv (v : Int) (s : List CLine) : Prop where
  front : ∀ j, j < s.length → ∀ i, i ≤ j →
    (s.getD j initLine).valid = true → (s.getD i initLine).valid = true
  inv_zero : ∀ l ∈ s, l.valid = false → l = initLine
  recent_le : ∀ l ∈ s, l.valid = true → l.recent ≤ v
  recent_one : ∀ i, i < s.length → ∀ j, j < s.length →
    (s.getD i initLine).valid = true → (s.getD j initLine).valid = true →
    (s.getD i initLine).recent = v → (s.getD j initLine).recent = v → i = j

/-- Invariant of the whole cache: every set satisfies `SetInv v` and has
exactly `perset` lines. -/
def cacheGood (v : Int) (perset : Nat) (cache : List (List CLine)) : Prop :=
  ∀ s ∈ cache, SetInv v s ∧ s.length = perset

/-! ### Generic list helpers -/

/-- A `getD` at an index below the length is a member of the list. -/
theorem getD_mem {α : Type} (l : List α) (i : Nat) (d : α) (h : i < l.length) :
    l.getD i d ∈ l := by
  rw [List.getD_eq_getElem l d h]
  exact List.getElem_mem h

/-- `getD` after `set` at the written index. -/
theorem getD_set_same {α : Type} (l : List α) (i : Nat) (a d : α) (h : i < l.length) :
    (l.set i a).getD i d = a := by
  simp [List.getD_eq_getElem?_getD, List.getElem?_set_self, h]

/-- `getD` after `set` at a different index. -/
theorem getD_set_other {α : Type} (l : List α) (i k : Nat) (a d : α) (h : i ≠ k) :
    (l.set i a).getD k d = l.getD k d := by
  simp [List.getD_eq_getElem?_getD, List.getElem?_set_ne h]

/-! ### Step equations for the scan loop -/

/-- Scan of an exhausted line list: the loop falls through with the current
candidate indices. -/
theorem surveyScan_nil (tag c mL mF : Int) (kL kF i : Nat) :
    surveyScan tag c [] mL mF kL kF i = Sum.inr (kL, kF) := rfl

/-- Scan step on a valid line with the matching tag: hit, break. -/
theorem surveyScan_cons_hit (tag c : Int) (x : CLine) (r : List CLine)
    (mL mF : Int) (kL kF i : Nat) (hv : x.valid = true) (ht : x.tag = tag) :
    surveyScan tag c (x :: r) mL mF kL kF i =
      Sum.inl (i, { x with recent := c, freq := x.freq + 1 }, true) := by
  simp [surveyScan, hv, sameTag, ht]

/-- Scan step on an invalid line: install, break.  Note that the slot's
`freq` field is left untouched by the C code. -/
theorem surveyScan_cons_install (tag c : Int) (x : CLine) (r : List CLine)
    (mL mF : Int) (kL kF i : Nat) (hv : x.valid = false) :
    surveyScan tag c (x :: r) mL mF kL kF i =
      Sum.inl (i, { x with valid := true, tag := tag, recent := c }, false) := by
  simp [surveyScan, hv]

/-- Scan step on a valid, non-matching line: update the two running minima
and continue.  The LFU tie-break branch of the C code compares
`singleSet[i].recent < minLRU` against the minimum that was already lowered
to at most `singleSet[i].recent` by the LRU update in the same iteration, so
the comparison is never true and the tie branch keeps the old LFU index:
the net effect is a plain first-strict-minimum update, which this equation
records. -/
theorem surveyScan_cons_skip (tag c : Int) (x : CLine) (r : List CLine)
    (mL mF : Int) (kL kF i : Nat) (hv : x.valid = true) (ht : x.tag ≠ tag) :
    surveyScan tag c (x :: r) mL mF kL kF i =
      surveyScan tag c r (if x.recent < mL then x.recent else mL)
        (if x.freq < mF then x.freq else mF)
        (if x.recent < mL then i else kL)
        (if x.freq < mF then i else kF) (i + 1) := by
  have hb : sameTag x.tag tag = false := by
    simp [sameTag, ht]
  by_cases h1 : x.recent < mL
  · by_cases h2 : x.freq < mF
    · simp [surveyScan, hv, hb, h1, h2]
    · by_cases h3 : x.freq = mF
      · simp [surveyScan, hv, hb, h1, h2, h3, lt_irrefl]
      · simp [surveyScan, hv, hb, h1, h2, h3]
  · by_cases h2 : x.freq < mF
    · simp [surveyScan, hv, hb, h1, h2]
    · by_cases h3 : x.freq = mF
      · simp [surveyScan, hv, hb, h1, h2, h3]
      · simp [surveyScan, hv, hb, h1, h2, h3]

/-! ### Inversion of the scan loop -/

/-- Inversion for a scan that breaks out of the loop (`stored = 1`): there is
a first position `r` (absolute index `i + r`) whose line is either a valid
matching line (hit) or an invalid line (install), and every line before it is
valid with a different tag. -/
theorem surveyScan_inl (tag c : Int) :
    ∀ (l : List CLine) (mL mF : Int) (kL kF i j : Nat) (nl : CLine) (b : Bool),
    surveyScan tag c l mL mF kL kF i = Sum.inl (j, nl, b) →
    ∃ r, r < l.length ∧ j = i + r ∧
      (∀ r2, r2 < r → (l.getD r2 initLine).valid = true ∧
        (l.getD r2 initLine).tag ≠ tag) ∧
      ((b = true ∧ (l.getD r initLine).valid = true ∧ (l.getD r initLine).tag = tag ∧
        nl = { l.getD r initLine with recent := c, freq := (l.getD r initLine).freq + 1 }) ∨
       (b = false ∧ (l.getD r initLine).valid = false ∧
        nl = { l.getD r initLine with valid := true, tag := tag, recent := c })) := by
  intro l
  induction l with
  | nil =>
      intro mL mF kL kF i j nl b h
      rw [surveyScan_nil] at h
      exact absurd h (by simp)
  | cons x r ih =>
      intro mL mF kL kF i j nl b h
      cases hv : x.valid with
      | false =>
          rw [surveyScan_cons_install tag c x r mL mF kL kF i hv] at h
          obtain ⟨hj, hnl, hb⟩ : i = j ∧ { x with valid := true, tag := tag, recent := c } = nl ∧ false = b := by
            simpa using h
          refine ⟨0, by simp, by omega, by omega, Or.inr ?_⟩
          simp [← hb, ← hnl, List.getD_cons_zero, hv]
      | true =>
          by_cases ht : x.tag = tag
          · rw [surveyScan_cons_hit tag c x r mL mF kL kF i hv ht] at h
            obtain ⟨hj, hnl, hb⟩ : i = j ∧ { x with recent := c, freq := x.freq + 1 } = nl ∧ true = b := by
              simpa using h
            refine ⟨0, by simp, by omega, by omega, Or.inl ?_⟩
            simp [← hb, ← hnl, List.getD_cons_zero, hv, ht]
          · rw [surveyScan_cons_skip tag c x r mL mF kL kF i hv ht] at h
            obtain ⟨r0, hr0, hj, hpre, hcase⟩ := ih _ _ _ _ _ _ _ _ h
            refine ⟨r0 + 1, by simpa using Nat.succ_lt_succ hr0, by omega, ?_, ?_⟩
            · intro r2 h2
              cases r2 with
              | zero => simpa [List.getD_cons_zero] using ⟨hv, ht⟩
              | succ r2 =>
                  rw [List.getD_cons_succ]
                  exact hpre r2 (by omega)
            · simpa [List.getD_cons_succ] using hcase

/-- Inversion for a scan that falls through the loop (`stored = 0`): every
line is valid with a different tag, and each returned candidate index is
either the caller's initial index or within the scanned range. -/
theorem surveyScan_inr (tag c : Int) :
    ∀ (l : List CLine) (mL mF : Int) (kL kF i kl kf : Nat),
    surveyScan tag c l mL mF kL kF i = Sum.inr (kl, kf) →
    (∀ x ∈ l, x.valid = true ∧ x.tag ≠ tag) ∧
    (kl = kL ∨ (i ≤ kl ∧ kl < i + l.length)) ∧
    (kf = kF ∨ (i ≤ kf ∧ kf < i + l.length)) := by
  intro l
  induction l with
  | nil =>
      intro mL mF kL kF i kl kf h
      rw [surveyScan_nil] at h
      obtain ⟨h1, h2⟩ : kL = kl ∧ kF = kf := by simpa using h
      exact ⟨by simp, Or.inl h1.symm, Or.inl h2.symm⟩
  | cons x r ih =>
      intro mL mF kL kF i kl kf h
      cases hv : x.valid with
      | false =>
          rw [surveyScan_cons_install tag c x r mL mF kL kF i hv] at h
          exact absurd h (by simp)
      | true =>
          by_cases ht : x.tag = tag
          · rw [surveyScan_cons_hit tag c x r mL mF kL kF i hv ht] at h
            exact absurd h (by simp)
          · rw [surveyScan_cons_skip tag c x r mL mF kL kF i hv ht] at h
            obtain ⟨hall, hkl, hkf⟩ := ih _ _ _ _ _ _ _ h
            refine ⟨?_, ?_, ?_⟩
            · intro y hy
              rcases List.mem_cons.mp hy with rfl | hy
              · exact ⟨hv, ht⟩
              · exact hall y hy
            · rcases hkl with hkl | hkl
              · by_cases h1 : x.recent < mL
                · simp only [if_pos h1] at hkl
                  right; simp; omega
                · simp only [if_neg h1] at hkl
                  left; exact hkl
              · right; simp; omega
            · rcases hkf with hkf | hkf
              · by_cases h2 : x.freq < mF
                · simp only [if_pos h2] at hkf
                  right; simp; omega
                · simp only [if_neg h2] at hkf
                  left; exact hkf
              · right; simp; omega

/-! ### The first-strict-minimum tracking of the scan -/

/-- The running-minimum update performed by the scan for one key (`recent`
for LRU, `freq` for LFU): the candidate index moves to the current line
exactly when its key is strictly below the running minimum. -/
def minScan (f : CLine → Int) : List CLine → Int → Nat → Nat → Nat
  | [], _, k, _ => k
  | x :: r, m, k, i =>
      if f x < m then minScan f r (f x) i (i + 1) else minScan f r m k (i + 1)

/-- A scan over only valid, non-matching lines falls through the loop and
returns exactly the two first-strict-minimum candidate indices, for the
`recent` key and the `freq` key respectively. -/
theorem surveyScan_full (tag c : Int) :
    ∀ (l : List CLine) (mL mF : Int) (kL kF i : Nat),
    (∀ x ∈ l, x.valid = true ∧ x.tag ≠ tag) →
    surveyScan tag c l mL mF kL kF i =
      Sum.inr (minScan (fun x => x.recent) l mL kL i,
               minScan (fun x => x.freq) l mF kF i) := by
  intro l
  induction l with
  | nil => intro mL mF kL kF i _; rw [surveyScan_nil]; rfl
  | cons x r ih =>
      intro mL mF kL kF i hall
      obtain ⟨hv, ht⟩ := hall x (List.mem_cons_self x r)
      rw [surveyScan_cons_skip tag c x r mL mF kL kF i hv ht]
      rw [ih _ _ _ _ _ (fun y hy => hall y (List.mem_cons_of_mem x hy))]
      by_cases h1 : x.recent < mL <;> by_cases h2 : x.freq < mF <;>
        simp [minScan, h1, h2]

/-- Characterisation of `minScan`: either no key goes below the initial
minimum and the initial candidate is returned, or the returned index is the
first position attaining the least key of the list (strictly below the
initial minimum, minimal among all keys, and strictly below every earlier
key). -/
theorem minScan_spec (f : CLine → Int) :
    ∀ (l : List CLine) (m : Int) (k i : Nat),
    ((∀ x ∈ l, m ≤ f x) ∧ minScan f l m k i = k) ∨
    (∃ j, j < l.length ∧ minScan f l m k i = i + j ∧ f (l.getD j initLine) < m ∧
      (∀ j2, j2 < l.length → f (l.getD j initLine) ≤ f (l.getD j2 initLine)) ∧
      (∀ j2, j2 < j → f (l.getD j initLine) < f (l.getD j2 initLine))) := by
  intro l
  induction l with
  | nil =>
      intro m k i
      left
      exact ⟨by simp, rfl⟩
  | cons x r ih =>
      intro m k i
      by_cases h1 : f x < m
      · right
        have hstep : minScan f (x :: r) m k i = minScan f r (f x) i (i + 1) := by
          simp [minScan, h1]
        rcases ih (f x) i (i + 1) with ⟨hall, heq⟩ | ⟨j, hj, heq, hlt, hmin, hfirst⟩
        · refine ⟨0, by simp, ?_, ?_, ?_, ?_⟩
          · rw [hstep, heq]; omega
          · rw [List.getD_cons_zero]; exact h1
          · intro j2 hj2
            cases j2 with
            | zero => simp
            | succ j2 =>
                rw [List.getD_cons_zero, List.getD_cons_succ]
                exact hall _ (getD_mem r j2 initLine (by simpa using hj2))
          · intro j2 hj2
            exact absurd hj2 (Nat.not_lt_zero j2)
        · refine ⟨j + 1, by simpa using Nat.succ_lt_succ hj, by rw [hstep, heq]; omega, ?_, ?_, ?_⟩
          · rw [List.getD_cons_succ]; exact lt_trans hlt h1
          · intro j2 hj2
            cases j2 with
            | zero =>
                rw [List.getD_cons_succ, List.getD_cons_zero]
                exact le_of_lt hlt
            | succ j2 =>
                rw [List.getD_cons_succ, List.getD_cons_succ]
                exact hmin j2 (by simpa using hj2)
          · intro j2 hj2
            cases j2 with
            | zero =>
                rw [List.getD_cons_succ, List.getD_cons_zero]
                exact hlt
            | succ j2 =>
                rw [List.getD_cons_succ, List.getD_cons_succ]
                exact hfirst j2 (by omega)
      · have hstep : minScan f (x :: r) m k i = minScan f r m k (i + 1) := by
          simp [minScan, h1]
        rcases ih m k (i + 1) with ⟨hall, heq⟩ | ⟨j, hj, heq, hlt, hmin, hfirst⟩
        · left
          refine ⟨?_, by rw [hstep, heq]⟩
          intro y hy
          rcases List.mem_cons.mp hy with rfl | hy
          · omega
          · exact hall y hy
        · right
          refine ⟨j + 1, by simpa using Nat.succ_lt_succ hj, by rw [hstep, heq]; omega, ?_, ?_, ?_⟩
          · rw [List.getD_cons_succ]; exact hlt
          · intro j2 hj2
            cases j2 with
            | zero =>
                rw [List.getD_cons_succ, List.getD_cons_zero]
                omega
            | succ j2 =>
                rw [List.getD_cons_succ, List.getD_cons_succ]
                exact hmin j2 (by simpa using hj2)
          · intro j2 hj2
            cases j2 with
            | zero =>
                rw [List.getD_cons_succ, List.getD_cons_zero]
                omega
            | succ j2 =>
                rw [List.getD_cons_succ, List.getD_cons_succ]
                exact hfirst j2 (by omega)

/-! ### Case analysis of one `surveySet` call -/

/-- Master case analysis of one `surveySet` call: either the scan breaks at
a first position `j` whose line is a valid matching line (hit) or an invalid
line (install), with all earlier lines valid and non-matching — or every line
is valid and non-matching and the victim at `finalIndex` is overwritten with
the fresh tag (eviction). -/
theorem surveySet_cases (s : List CLine) (st : CacheStats) (tag clock policy : Int) :
    (∃ j, j < s.length ∧
      (∀ r, r < j → (s.getD r initLine).valid = true ∧ (s.getD r initLine).tag ≠ tag) ∧
      (((s.getD j initLine).valid = true ∧ (s.getD j initLine).tag = tag ∧
        surveySet s st tag clock policy =
          ⟨s.set j { s.getD j initLine with
                       recent := clock, freq := (s.getD j initLine).freq + 1 },
           { st with hit_count := st.hit_count + 1 }, "hit "⟩) ∨
       ((s.getD j initLine).valid = false ∧
        surveySet s st tag clock policy =
          ⟨s.set j { s.getD j initLine with valid := true, tag := tag, recent := clock },
           { st with miss_count := st.miss_count + 1 }, "miss "⟩))) ∨
    ((∀ x ∈ s, x.valid = true ∧ x.tag ≠ tag) ∧
     ∃ fi, (fi < s.length ∨ fi = 0) ∧
       surveySet s st tag clock policy =
         ⟨s.set fi { s.getD fi initLine with tag := tag, recent := clock, freq := 0 },
          { st with miss_count := st.miss_count + 1,
                    eviction_count := st.eviction_count + 1 }, "evict "⟩) := by
  rcases h : surveyScan tag clock s clock clock 0 0 0 with ⟨j, nl, b⟩ | ⟨kl, kf⟩
  · obtain ⟨r, hr, hj, hpre, hcase⟩ := surveyScan_inl tag clock s _ _ _ _ _ _ _ _ h
    left
    subst hj
    refine ⟨r, hr, hpre, ?_⟩
    rcases hcase with ⟨hb, hval, htag, hnl⟩ | ⟨hb, hval, hnl⟩
    · subst hb; subst hnl
      refine Or.inl ⟨hval, htag, ?_⟩
      simp only [surveySet, h, Nat.zero_add]
    · subst hb; subst hnl
      refine Or.inr ⟨hval, ?_⟩
      simp only [surveySet, h, Nat.zero_add]
  · obtain ⟨hall, hkl, hkf⟩ := surveyScan_inr tag clock s _ _ _ _ _ _ _ h
    right
    refine ⟨hall, if policy = 0 then kl else if policy = 1 then kf else 0, ?_, ?_⟩
    · by_cases h0 : policy = 0
      · simp only [if_pos h0]; omega
      · by_cases h1 : policy = 1
        · simp only [if_neg h0, if_pos h1]; omega
        · simp only [if_neg h0, if_neg h1]; right; trivial
    · simp only [surveySet, h]

/-- A `surveySet` call never changes the number of lines of the set. -/
theorem surveySet_length (s : List CLine) (st : CacheStats) (tag clock policy : Int) :
    (surveySet s st tag clock policy).set.length = s.length := by
  rcases h : surveyScan tag clock s clock clock 0 0 0 with ⟨j, nl, b⟩ | ⟨kl, kf⟩
  · cases b <;> simp only [surveySet, h] <;> exact List.length_set ..
  · simp only [surveySet, h]
    exact List.length_set ..

/-- A `surveySet` call updates the counters in exactly one of three ways:
one hit, one plain miss, or one miss together with one eviction. -/
theorem surveySet_stats (s : List CLine) (st : CacheStats) (tag clock policy : Int) :
    (surveySet s st tag clock policy).stats = { st with hit_count := st.hit_count + 1 } ∨
    (surveySet s st tag clock policy).stats = { st with miss_count := st.miss_count + 1 } ∨
    (surveySet s st tag clock policy).stats =
      { st with miss_count := st.miss_count + 1,
                eviction_count := st.eviction_count + 1 } := by
  rcases h : surveyScan tag clock s clock clock 0 0 0 with ⟨j, nl, b⟩ | ⟨kl, kf⟩
  · cases b
    · right; left; simp only [surveySet, h]
    · left; simp only [surveySet, h]
  · right; right; simp only [surveySet, h]

/-! ### Preservation of the per-set invariant -/

/-- The empty line list satisfies the set invariant vacuously. -/
theorem SetInv_nil (v : Int) : SetInv v [] := by
  constructor <;> intro i hi <;> simp_all

/-- The set invariant is monotone in the clock bound. -/
theorem SetInv_mono {v w : Int} {s : List CLine} (h : SetInv v s) (hvw : v ≤ w) :
    SetInv w s := by
  constructor
  · exact h.front
  · exact h.inv_zero
  · exact fun l hl hv2 => le_trans (h.recent_le l hl hv2) hvw
  · intro i hi j hj hvi hvj hri hrj
    rcases eq_or_lt_of_le hvw with rfl | hlt
    · exact h.recent_one i hi j hj hvi hvj hri hrj
    · have := h.recent_le _ (getD_mem s i initLine hi) hvi
      omega

/-- Overwriting position `k` with a valid line stamped `recent = v`, when all
positions before `k` are valid, preserves the set invariant at bound `v + 1`;
if every valid line was strictly older than `v`, the invariant holds at
bound `v` itself. -/
theorem SetInv_update (v : Int) (s : List CLine) (k : Nat) (nl : CLine)
    (hk : k < s.length) (hnl : nl.valid = true) (hrec : nl.recent = v)
    (hpre : ∀ r, r < k → (s.getD r initLine).valid = true)
    (hinv : SetInv v s) :
    SetInv (v + 1) (s.set k nl) ∧
    ((∀ l ∈ s, l.valid = true → l.recent < v) → SetInv v (s.set k nl)) := by
  have hfront : ∀ j, j < (s.set k nl).length → ∀ i, i ≤ j →
      ((s.set k nl).getD j initLine).valid = true →
      ((s.set k nl).getD i initLine).valid = true := by
    intro j hj i hij hvj
    rw [List.length_set] at hj
    by_cases hik : i = k
    · subst hik
      rw [getD_set_same s i nl initLine hk]
      exact hnl
    · rw [getD_set_other s k i nl initLine (fun he => hik he.symm)]
      by_cases hjk : j = k
      · subst hjk
        exact hpre i (by omega)
      · rw [getD_set_other s k j nl initLine (fun he => hjk he.symm)] at hvj
        exact hinv.front j hj i hij hvj
  have hzero : ∀ l ∈ s.set k nl, l.valid = false → l = initLine := by
    intro l hl hv0
    rcases List.mem_or_eq_of_mem_set hl with hl | rfl
    · exact hinv.inv_zero l hl hv0
    · rw [hnl] at hv0; cases hv0
  refine ⟨⟨hfront, hzero, ?_, ?_⟩, fun hstrict => ⟨hfront, hzero, ?_, ?_⟩⟩
  · intro l hl hv2
    rcases List.mem_or_eq_of_mem_set hl with hl | rfl
    · have := hinv.recent_le l hl hv2; omega
    · omega
  · intro i hi j hj hvi hvj hri hrj
    rw [List.length_set] at hi hj
    exfalso
    rcases List.mem_or_eq_of_mem_set (getD_mem (s.set k nl) i initLine
      (by rw [List.length_set]; exact hi)) with hl | hl
    · have := hinv.recent_le _ hl hvi; omega
    · rw [hl] at hri; omega
  · intro l hl hv2
    rcases List.mem_or_eq_of_mem_set hl with hl | rfl
    · have := hstrict l hl hv2; omega
    · omega
  · intro i hi j hj hvi hvj hri hrj
    rw [List.length_set] at hi hj
    have hkey : ∀ p, p < s.length → ((s.set k nl).getD p initLine).valid = true →
        ((s.set k nl).getD p initLine).recent = v → p = k := by
      intro p hp hvp hrp
      by_contra hpk
      rw [getD_set_other s k p nl initLine (fun he => hpk he.symm)] at hvp hrp
      have := hstrict _ (getD_mem s p initLine hp) hvp
      omega
    rw [hkey i hi hvi hri, hkey j hj hvj hrj]

/-- Valid lines of the output of a `surveySet` call at clock `v` have
`recent` at most `v`, provided the input lines did. -/
theorem surveySet_recent_le (s : List CLine) (st : CacheStats) (tag v policy : Int)
    (h : ∀ l ∈ s, l.valid = true → l.recent ≤ v) :
    ∀ l ∈ (surveySet s st tag v policy).set, l.valid = true → l.recent ≤ v := by
  rcases surveySet_cases s st tag v policy with ⟨j, hj, hpre, hcase⟩ | ⟨hall, fi, hfi, heq⟩
  · rcases hcase with ⟨hval, htag, heq⟩ | ⟨hval, heq⟩ <;>
    · have hs := congrArg SurveyOut.set heq
      dsimp only at hs
      rw [hs]
      intro l hl hv2
      rcases List.mem_or_eq_of_mem_set hl with hl | rfl
      · exact h l hl hv2
      · simp
  · have hs := congrArg SurveyOut.set heq
    dsimp only at hs
    rw [hs]
    intro l hl hv2
    rcases List.mem_or_eq_of_mem_set hl with hl | rfl
    · exact h l hl hv2
    · simp

/-- One `surveySet` call at clock `v` on a set satisfying `SetInv v`
produces a set satisfying `SetInv (v + 1)`; if moreover every valid line was
strictly older than `v`, the result satisfies `SetInv v` itself. -/
theorem surveySet_SetInv (s : List CLine) (st : CacheStats) (tag v policy : Int)
    (hinv : SetInv v s) :
    SetInv (v + 1) ((surveySet s st tag v policy).set) ∧
    ((∀ l ∈ s, l.valid = true → l.recent < v) →
      SetInv v ((surveySet s st tag v policy).set)) := by
  rcases surveySet_cases s st tag v policy with ⟨j, hj, hpre, hcase⟩ | ⟨hall, fi, hfi, heq⟩
  · rcases hcase with ⟨hval, htag, heq⟩ | ⟨hval, heq⟩
    · have hs := congrArg SurveyOut.set heq
      dsimp only at hs
      rw [hs]
      exact SetInv_update v s j _ hj (by simpa using hval) rfl
        (fun r hr => (hpre r hr).1) hinv
    · have hs := congrArg SurveyOut.set heq
      dsimp only at hs
      rw [hs]
      exact SetInv_update v s j _ hj (by simp) rfl
        (fun r hr => (hpre r hr).1) hinv
  · have hs := congrArg SurveyOut.set heq
    dsimp only at hs
    rw [hs]
    by_cases hflen : fi < s.length
    · exact SetInv_update v s fi _ hflen
        (by simpa using (hall _ (getD_mem s fi initLine hflen)).1) rfl
        (fun r hr => (hall _ (getD_mem s r initLine (by omega))).1) hinv
    · have hnil : s = [] := by
        rcases hfi with hfi | hfi
        · exact absurd hfi hflen
        · subst hfi
          exact List.length_eq_zero.mp (by omega)
      subst hnil
      simp only [List.set]
      exact ⟨SetInv_nil _, fun _ => SetInv_nil _⟩

/-! ### Statistics bookkeeping -/

/-- Every `surveySet` call accounts for exactly one sub-access in
`hit_count + miss_count`. -/
theorem surveySet_hit_miss (s : List CLine) (st : CacheStats) (tag clock policy : Int) :
    (surveySet s st tag clock policy).stats.hit_count +
      (surveySet s st tag clock policy).stats.miss_count =
      st.hit_count + st.miss_count + 1 := by
  rcases surveySet_stats s st tag clock policy with h | h | h <;> rw [h] <;> dsimp <;> ring

/-- Well-formedness of the running counters: all non-negative and never more
evictions than misses. -/
def statsGood (st : CacheStats) : Prop :=
  0 ≤ st.hit_count ∧ 0 ≤ st.miss_count ∧ 0 ≤ st.eviction_count ∧
  st.eviction_count ≤ st.miss_count

/-- A `surveySet` call preserves counter well-formedness. -/
theorem surveySet_statsGood (s : List CLine) (st : CacheStats) (tag clock policy : Int)
    (h : statsGood st) : statsGood (surveySet s st tag clock policy).stats := by
  obtain ⟨h1, h2, h3, h4⟩ := h
  rcases surveySet_stats s st tag clock policy with hs | hs | hs <;> rw [hs] <;>
    exact ⟨by dsimp; omega, by dsimp; omega, by dsimp; omega, by dsimp; omega⟩

/-- A `cacheSim` call accounts for one sub-access, or two for a Modify. -/
theorem cacheSim_hit_miss (cache : List (List CLine)) (stats : CacheStats)
    (tag setNumber clock : Int) (op : Char) (policy : Int) :
    (cacheSim cache stats tag setNumber clock op policy).2.hit_count +
      (cacheSim cache stats tag setNumber clock op policy).2.miss_count =
      stats.hit_count + stats.miss_count + (if op = 'M' then 2 else 1) := by
  by_cases hop : op = 'M'
  · simp only [cacheSim, if_pos hop]
    rw [surveySet_hit_miss, surveySet_hit_miss]
    ring
  · simp only [cacheSim, if_neg hop]
    rw [surveySet_hit_miss]

/-- A `cacheSim` call preserves counter well-formedness. -/
theorem cacheSim_statsGood (cache : List (List CLine)) (stats : CacheStats)
    (tag setNumber clock : Int) (op : Char) (policy : Int) (h : statsGood stats) :
    statsGood (cacheSim cache stats tag setNumber clock op policy).2 := by
  by_cases hop : op = 'M'
  · simp only [cacheSim, if_pos hop]
    exact surveySet_statsGood _ _ _ _ _ (surveySet_statsGood _ _ _ _ _ h)
  · simp only [cacheSim, if_neg hop]
    exact surveySet_statsGood _ _ _ _ _ h

/-- One replay step adds the record's sub-access weight to
`hit_count + miss_count`. -/
theorem replayStep_hit_miss (sbits bbits policy : Int) (st : SimState) (r : TraceRec) :
    (replayStep sbits bbits policy st r).stats.hit_count +
      (replayStep sbits bbits policy st r).stats.miss_count =
      st.stats.hit_count + st.stats.miss_count + subAccessWeight r := by
  simp only [replayStep, subAccessWeight]
  exact cacheSim_hit_miss ..

/-- Accumulated form of `replayStep_hit_miss` over a record list. -/
theorem foldl_hit_miss (sbits bbits policy : Int) :
    ∀ (recs : List TraceRec) (st : SimState),
    (recs.foldl (replayStep sbits bbits policy) st).stats.hit_count +
      (recs.foldl (replayStep sbits bbits policy) st).stats.miss_count =
      st.stats.hit_count + st.stats.miss_count + (recs.map subAccessWeight).sum := by
  intro recs
  induction recs with
  | nil => intro st; simp
  | cons r rest ih =>
      intro st
      rw [List.foldl_cons, ih, replayStep_hit_miss]
      simp [List.map_cons, List.sum_cons]
      ring

/-- Counter well-formedness is preserved along any replay. -/
theorem foldl_statsGood (sbits bbits policy : Int) :
    ∀ (recs : List TraceRec) (st : SimState), statsGood st.stats →
    statsGood ((recs.foldl (replayStep sbits bbits policy) st)).stats := by
  intro recs
  induction recs with
  | nil => intro st h; exact h
  | cons r rest ih =>
      intro st h
      rw [List.foldl_cons]
      exact ih _ (cacheSim_statsGood _ _ _ _ _ _ _ h)

/-! ### The whole-cache invariant along a replay -/

/-- A `cacheSim` call at clock `v` on a well-formed cache leaves a cache that
is well-formed for the next record's clock `v + 1`.  (The Modify case runs
its second sub-access at `v + 1`, which is exactly why the tight bound still
holds: before that sub-access every line is stamped at most `v`.) -/
theorem cacheSim_good (cache : List (List CLine)) (stats : CacheStats)
    (tag setNumber v : Int) (op : Char) (policy : Int) (perset : Nat)
    (h : cacheGood v perset cache) :
    cacheGood (v + 1) perset (cacheSim cache stats tag setNumber v op policy).1 := by
  by_cases hrange : setNumber.toNat < cache.length
  · obtain ⟨hinv, hlen⟩ := h _ (getD_mem cache setNumber.toNat [] hrange)
    have o1inv : SetInv (v + 1)
        (surveySet (cache.getD setNumber.toNat []) stats tag v policy).set :=
      (surveySet_SetInv _ _ _ _ _ hinv).1
    have o1len : (surveySet (cache.getD setNumber.toNat []) stats tag v policy).set.length
        = perset := by rw [surveySet_length]; exact hlen
    have o1rec : ∀ l ∈ (surveySet (cache.getD setNumber.toNat []) stats tag v policy).set,
        l.valid = true → l.recent ≤ v :=
      surveySet_recent_le _ _ _ _ _ hinv.recent_le
    by_cases hop : op = 'M'
    · simp only [cacheSim, if_pos hop]
      intro s hs
      rcases List.mem_or_eq_of_mem_set hs with hs | rfl
      · rcases List.mem_or_eq_of_mem_set hs with hs | rfl
        · obtain ⟨hi, hl⟩ := h s hs
          exact ⟨SetInv_mono hi (by omega), hl⟩
        · exact ⟨o1inv, o1len⟩
      · refine ⟨(surveySet_SetInv _ _ _ _ _ o1inv).2
          (fun l hl hv2 => lt_of_le_of_lt (o1rec l hl hv2) (by omega)), ?_⟩
        rw [surveySet_length]
        exact o1len
    · simp only [cacheSim, if_neg hop]
      intro s hs
      rcases List.mem_or_eq_of_mem_set hs with hs | rfl
      · obtain ⟨hi, hl⟩ := h s hs
        exact ⟨SetInv_mono hi (by omega), hl⟩
      · exact ⟨o1inv, o1len⟩
  · have hoob : ∀ (x : List CLine), cache.set setNumber.toNat x = cache :=
      fun x => List.set_eq_of_length_le (by omega)
    by_cases hop : op = 'M'
    · simp only [cacheSim, if_pos hop, hoob]
      intro s hs
      obtain ⟨hi, hl⟩ := h s hs
      exact ⟨SetInv_mono hi (by omega), hl⟩
    · simp only [cacheSim, if_neg hop, hoob]
      intro s hs
      obtain ⟨hi, hl⟩ := h s hs
      exact ⟨SetInv_mono hi (by omega), hl⟩

/-- One replay step preserves the whole-cache invariant (stated for the
clock of the next record). -/
theorem replayStep_good (sbits bbits policy : Int) (perset : Nat) (st : SimState)
    (r : TraceRec) (h : cacheGood (st.clock + 1) perset st.cache) :
    cacheGood ((replayStep sbits bbits policy st r).clock + 1) perset
      (replayStep sbits bbits policy st r).cache := by
  simp only [replayStep]
  exact cacheSim_good _ _ _ _ _ _ _ _ h

/-- The whole-cache invariant is preserved along any replay. -/
theorem foldl_cacheGood (sbits bbits policy : Int) (perset : Nat) :
    ∀ (recs : List TraceRec) (st : SimState),
    cacheGood (st.clock + 1) perset st.cache →
    cacheGood ((recs.foldl (replayStep sbits bbits policy) st).clock + 1) perset
      (recs.foldl (replayStep sbits bbits policy) st).cache := by
  intro recs
  induction recs with
  | nil => intro st h; exact h
  | cons r rest ih =>
      intro st h
      rw [List.foldl_cons]
      exact ih _ (replayStep_good _ _ _ _ _ _ h)

/-- The fresh cache is well-formed for the first record's clock 1. -/
theorem initState_good (sbits : Int) (perset : Nat) :
    cacheGood ((initState sbits perset).clock + 1) perset (initState sbits perset).cache := by
  intro s hs
  have hrep := List.eq_of_mem_replicate hs
  subst hrep
  refine ⟨⟨?_, ?_, ?_, ?_⟩, List.length_replicate ..⟩
  · intro j hj i hij hvj
    rw [List.length_replicate] at hj
    rw [List.getD_eq_getElem _ _ (by simpa using hj), List.getElem_replicate] at hvj
    cases hvj
  · intro l hl _
    exact List.eq_of_mem_replicate hl
  · intro l hl hv2
    rw [List.eq_of_mem_replicate hl] at hv2
    cases hv2
  · intro i hi j hj hvi
    rw [List.length_replicate] at hi
    rw [List.getD_eq_getElem _ _ (by simpa using hi), List.getElem_replicate] at hvi
    cases hvi

/-- Every replay-reachable cache is well-formed for the next record's clock. -/
theorem replay_cacheGood (sbits bbits : Int) (perset : Nat) (policy : Int)
    (recs : List TraceRec) :
    cacheGood ((replayTrace sbits bbits perset policy recs).clock + 1) perset
      (replayTrace sbits bbits perset policy recs).cache :=
  foldl_cacheGood sbits bbits policy perset recs (initState sbits perset)
    (initState_good sbits perset)

/-! ### Outcome lemmas for single lookups -/

/-- Overwriting the mutable fields of a valid line yields the literal line. -/
theorem CLine_overwrite (x : CLine) (t v2 : Int) (hx : x.valid = true) :
    ({ x with tag := t, recent := v2, freq := 0 } : CLine) = ⟨true, t, v2, 0⟩ := by
  cases x
  simp_all

/-- A lookup on a full set holding no matching tag records exactly one miss
and one eviction (and reports it). -/
theorem surveySet_full_evict (s : List CLine) (st : CacheStats) (tag clock policy : Int)
    (hfull : ∀ x ∈ s, x.valid = true) (hnm : ∀ x ∈ s, x.tag ≠ tag) :
    (surveySet s st tag clock policy).stats =
      { st with miss_count := st.miss_count + 1,
                eviction_count := st.eviction_count + 1 } ∧
    (surveySet s st tag clock policy).result = "evict " := by
  rcases surveySet_cases s st tag clock policy with ⟨j, hj, hpre, hcase⟩ | ⟨hall, fi, hfi, heq⟩
  · exfalso
    rcases hcase with ⟨hval, htag, heq⟩ | ⟨hval, heq⟩
    · exact hnm _ (getD_mem s j initLine hj) htag
    · rw [hfull _ (getD_mem s j initLine hj)] at hval
      simp at hval
  · constructor
    · have hs := congrArg SurveyOut.stats heq
      dsimp only at hs
      exact hs
    · have hs := congrArg SurveyOut.result heq
      dsimp only at hs
      exact hs

/-- A valid line never becomes invalid: whatever a lookup does, a position
that held a valid line still holds a valid line afterwards. -/
theorem surveySet_valid_mono (s : List CLine) (st : CacheStats) (tag clock policy : Int)
    (i : Nat) (h : (s.getD i initLine).valid = true) :
    (((surveySet s st tag clock policy).set).getD i initLine).valid = true := by
  have hi : i < s.length := by
    by_contra hio
    rw [List.getD_eq_default _ _ (by omega)] at h
    simp [initLine] at h
  rcases surveySet_cases s st tag clock policy with ⟨j, hj, hpre, hcase⟩ | ⟨hall, fi, hfi, heq⟩
  · rcases hcase with ⟨hval, htag, heq⟩ | ⟨hval, heq⟩
    · have hs := congrArg SurveyOut.set heq
      dsimp only at hs
      rw [hs]
      by_cases hij : j = i
      · subst hij
        rw [getD_set_same _ _ _ _ hj]
        simpa using hval
      · rw [getD_set_other _ _ _ _ _ hij]
        exact h
    · have hs := congrArg SurveyOut.set heq
      dsimp only at hs
      rw [hs]
      by_cases hij : j = i
      · subst hij
        rw [getD_set_same _ _ _ _ hj]
      · rw [getD_set_other _ _ _ _ _ hij]
        exact h
  · have hs := congrArg SurveyOut.set heq
    dsimp only at hs
    rw [hs]
    by_cases hij : fi = i
    · subst hij
      rw [getD_set_same _ _ _ _ (by omega)]
      simpa using h
    · rw [getD_set_other _ _ _ _ _ hij]
      exact h

/-- A lookup that meets an invalid slot after a run of valid, non-matching
lines records exactly one miss, installs `{valid, tag, recent := clock,
freq = 0}` into that slot (the slot's zero-initialised `freq` is untouched),
and modifies nothing else. -/
theorem surveySet_install_at (s : List CLine) (st : CacheStats) (tag clock policy : Int)
    (k : Nat) (hk : k < s.length)
    (hzero : ∀ l ∈ s, l.valid = false → l = initLine)
    (hpre : ∀ r, r < k → (s.getD r initLine).valid = true ∧ (s.getD r initLine).tag ≠ tag)
    (hkinv : (s.getD k initLine).valid = false) :
    surveySet s st tag clock policy =
      ⟨s.set k ⟨true, tag, clock, 0⟩,
       { st with miss_count := st.miss_count + 1 }, "miss "⟩ := by
  rcases surveySet_cases s st tag clock policy with ⟨j, hj, hpre2, hcase⟩ | ⟨hall, fi, hfi, heq⟩
  · rcases hcase with ⟨hval, htag, heq⟩ | ⟨hval, heq⟩
    · exfalso
      rcases Nat.lt_trichotomy j k with hlt | he | hgt
      · exact (hpre j hlt).2 htag
      · subst he
        rw [hkinv] at hval
        simp at hval
      · obtain ⟨hv, _⟩ := hpre2 k hgt
        rw [hkinv] at hv
        simp at hv
    · have hjk : j = k := by
        rcases Nat.lt_trichotomy j k with hlt | he | hgt
        · exfalso
          rw [(hpre j hlt).1] at hval
          simp at hval
        · exact he
        · exfalso
          obtain ⟨hv, _⟩ := hpre2 k hgt
          rw [hkinv] at hv
          simp at hv
      subst hjk
      rw [heq, hzero _ (getD_mem s j initLine hj) hval]
      rfl
  · exfalso
    have hv := (hall _ (getD_mem s k initLine hk)).1
    rw [hkinv] at hv
    simp at hv

/-- After any lookup of `tag` on a non-empty set, a further lookup of the
same `tag` (at any clock, with any statistics) is a hit: it bumps only the
hit counter and reports "hit ". -/
theorem surveySet_second_hit (s : List CLine) (st : CacheStats) (tag clock policy : Int)
    (hlen : 1 ≤ s.length) (st2 : CacheStats) (w : Int) :
    (surveySet ((surveySet s st tag clock policy).set) st2 tag w policy).stats =
      { st2 with hit_count := st2.hit_count + 1 } ∧
    (surveySet ((surveySet s st tag clock policy).set) st2 tag w policy).result = "hit " := by
  obtain ⟨k, hk, hkv, hkt, hkpre⟩ :
      ∃ k, k < ((surveySet s st tag clock policy).set).length ∧
        ((((surveySet s st tag clock policy).set).getD k initLine).valid = true) ∧
        ((((surveySet s st tag clock policy).set).getD k initLine).tag = tag) ∧
        (∀ r, r < k →
          ((((surveySet s st tag clock policy).set).getD r initLine).valid = true) ∧
          ((((surveySet s st tag clock policy).set).getD r initLine).tag ≠ tag)) := by
    rcases surveySet_cases s st tag clock policy with ⟨j, hj, hpre, hcase⟩ | ⟨hall, fi, hfi, heq⟩
    · rcases hcase with ⟨hval, htag, heq⟩ | ⟨hval, heq⟩
      · have hs := congrArg SurveyOut.set heq
        dsimp only at hs
        refine ⟨j, ?_, ?_, ?_, ?_⟩
        · rw [hs, List.length_set]; exact hj
        · rw [hs, getD_set_same _ _ _ _ hj]; simpa using hval
        · rw [hs, getD_set_same _ _ _ _ hj]; simpa using htag
        · intro r hr
          rw [hs, getD_set_other _ _ _ _ _ (by omega)]
          exact hpre r hr
      · have hs := congrArg SurveyOut.set heq
        dsimp only at hs
        refine ⟨j, ?_, ?_, ?_, ?_⟩
        · rw [hs, List.length_set]; exact hj
        · rw [hs, getD_set_same _ _ _ _ hj]
        · rw [hs, getD_set_same _ _ _ _ hj]
        · intro r hr
          rw [hs, getD_set_other _ _ _ _ _ (by omega)]
          exact hpre r hr
    · have hfi2 : fi < s.length := by
        rcases hfi with hfi | hfi
        · exact hfi
        · omega
      have hs := congrArg SurveyOut.set heq
      dsimp only at hs
      refine ⟨fi, ?_, ?_, ?_, ?_⟩
      · rw [hs, List.length_set]; exact hfi2
      · rw [hs, getD_set_same _ _ _ _ hfi2]
        simpa using (hall _ (getD_mem s fi initLine hfi2)).1
      · rw [hs, getD_set_same _ _ _ _ hfi2]
      · intro r hr
        rw [hs, getD_set_other _ _ _ _ _ (by omega)]
        exact ⟨(hall _ (getD_mem s r initLine (by omega))).1,
               (hall _ (getD_mem s r initLine (by omega))).2⟩
  rcases surveySet_cases ((surveySet s st tag clock policy).set) st2 tag w policy with
    ⟨j2, hj2, hpre2, hcase2⟩ | ⟨hall2, fi2, hfi2, heq2⟩
  · rcases hcase2 with ⟨hval2, htag2, heq2⟩ | ⟨hval2, heq2⟩
    · constructor
      · have hs := congrArg SurveyOut.stats heq2
        dsimp only at hs
        exact hs
      · have hs := congrArg SurveyOut.result heq2
        dsimp only at hs
        exact hs
    · exfalso
      rcases Nat.lt_trichotomy j2 k with hlt | he | hgt
      · rw [(hkpre j2 hlt).1] at hval2
        simp at hval2
      · subst he
        rw [hkv] at hval2
        simp at hval2
      · exact (hpre2 k hgt).2 hkt
  · exfalso
    exact (hall2 _ (getD_mem _ k initLine hk)).2 hkt

/-- On a full set with no matching tag, a lookup under the LRU policy evicts
the first line attaining the minimal `recent` stamp: the victim's stamp is a
global minimum and strictly below every earlier line's stamp, so on equal
stamps the lowest index wins.  The victim slot is overwritten with
`{valid, tag, recent := clock, freq := 0}` and one miss plus one eviction is
recorded.  The hypotheses are exactly what holds at any lookup of a replay:
a full, non-matching set satisfying the reachable-state invariant `SetInv`
at the lookup clock. -/
theorem surveySet_lru_victim (s : List CLine) (st : CacheStats) (tag v : Int)
    (hne : s ≠ []) (hfull : ∀ x ∈ s, x.valid = true) (hnm : ∀ x ∈ s, x.tag ≠ tag)
    (hinv : SetInv v s) :
    ∃ k, k < s.length ∧
      (∀ j2, j2 < s.length →
        (s.getD k initLine).recent ≤ (s.getD j2 initLine).recent) ∧
      (∀ j2, j2 < k → (s.getD k initLine).recent < (s.getD j2 initLine).recent) ∧
      surveySet s st tag v 0 =
        ⟨s.set k ⟨true, tag, v, 0⟩,
         { st with miss_count := st.miss_count + 1,
                   eviction_count := st.eviction_count + 1 },
         "evict "⟩ := by
  have hall : ∀ x ∈ s, x.valid = true ∧ x.tag ≠ tag := fun x hx => ⟨hfull x hx, hnm x hx⟩
  have hscan := surveyScan_full tag v s v v 0 0 0 hall
  have hlen : 1 ≤ s.length := by
    cases s with
    | nil => exact absurd rfl hne
    | cons a r => simp
  rcases minScan_spec (fun x => x.recent) s v 0 0 with ⟨hge, heq⟩ | ⟨j, hj, heq, hlt, hmin, hfirst⟩
  · have hrv : ∀ i2, i2 < s.length → (s.getD i2 initLine).recent = v := by
      intro i2 hi2
      have h1 := hge _ (getD_mem s i2 initLine hi2)
      have h2 := hinv.recent_le _ (getD_mem s i2 initLine hi2)
        (hfull _ (getD_mem s i2 initLine hi2))
      omega
    have hlen1 : s.length = 1 := by
      by_contra hne1
      have h01 : (0 : Nat) = 1 := hinv.recent_one 0 (by omega) 1 (by omega)
        (hfull _ (getD_mem s 0 initLine (by omega)))
        (hfull _ (getD_mem s 1 initLine (by omega)))
        (hrv 0 (by omega)) (hrv 1 (by omega))
      exact absurd h01 (by omega)
    refine ⟨0, by omega, ?_, ?_, ?_⟩
    · intro j2 hj2
      have hj20 : j2 = 0 := by omega
      subst hj20
      exact le_refl _
    · intro j2 hj2
      exact absurd hj2 (Nat.not_lt_zero j2)
    · simp only [surveySet, hscan, heq]
      norm_num
      have hvv : (s.getD 0 initLine).valid = true :=
        hfull _ (getD_mem s 0 initLine (by omega))
      rw [List.getD_eq_getElem?_getD] at hvv
      rw [hvv]
  · refine ⟨j, hj, hmin, hfirst, ?_⟩
    simp only [surveySet, hscan, heq]
    norm_num
    have hvv : (s.getD j initLine).valid = true :=
      hfull _ (getD_mem s j initLine hj)
    rw [List.getD_eq_getElem?_getD] at hvv
    rw [hvv]

/-! ### Claim theorems -/

set_option maxRecDepth 8000

/-- Claim C1, code behaviour at the failing input: under policy LFU
(policy = 1) on one 2-line set, after the accesses tag 1 @ clock 1,
tag 2 @ clock 2 and tag 3 @ clock 3 both lines carry frequency 0 (an LFU
tie) with `last_used` stamps 3 (index 0) and 2 (index 1); the eviction for
tag 4 @ clock 4 then overwrites index 0 — the line with the LARGER
`last_used` — and leaves the less-recently-used line (index 1, stamp 2) in
place.  The claimed tie-break (prefer the smaller `last_used`) demands the
opposite victim: the tie-break comparison `recent < minLRU` in the C code
reads `minLRU` after the same iteration's LRU update has already lowered it,
so it can never be true. -/
theorem lfu_tie_evicts_more_recent_line :
    (surveySet (surveySet (surveySet (List.replicate 2 initLine)
        ⟨0, 0, 0⟩ 1 1 1).set ⟨0, 0, 0⟩ 2 2 1).set ⟨0, 0, 0⟩ 3 3 1).set =
      [⟨true, 3, 3, 0⟩, ⟨true, 2, 2, 0⟩] ∧
    (surveySet [⟨true, 3, 3, 0⟩, ⟨true, 2, 2, 0⟩] ⟨0, 0, 0⟩ 4 4 1).set =
      [⟨true, 4, 4, 0⟩, ⟨true, 2, 2, 0⟩] :=
  ⟨by decide, by decide⟩

/-- Claim C2, code behaviour at the failing input: with sbits = 0,
bbits = 0, perset = 1, policy LRU, the data accesses 0x0, 0x10, 0x0 are
decomposed with a tag mask of 0 (the 32-bit `~0` is shifted by
`tbits = 64`, which wraps to a shift by 0, so `mask = ~(~0) = 0`), hence
every address gets tag 0: the outcomes are miss, hit, hit and the final
counters are {hits 2, misses 1, evictions 0} — not the claimed
miss, miss+evict, miss+evict with {0, 3, 2}. -/
theorem degenerate_config_replay :
    replayTrace 0 0 1 0 [⟨'L', 0⟩] =
      ⟨1, [[⟨true, 0, 1, 0⟩]], ⟨1, 0, 0⟩⟩ ∧
    replayTrace 0 0 1 0 [⟨'L', 0⟩, ⟨'L', 16⟩] =
      ⟨2, [[⟨true, 0, 2, 1⟩]], ⟨1, 1, 0⟩⟩ ∧
    replayTrace 0 0 1 0 [⟨'L', 0⟩, ⟨'L', 16⟩, ⟨'L', 0⟩] =
      ⟨3, [[⟨true, 0, 3, 2⟩]], ⟨1, 2, 0⟩⟩ :=
  ⟨by decide, by decide, by decide⟩

/-- Claim C3: a Modify operation on a set with at least one line runs two
sub-accesses with the same tag on the same set, the second at `clock + 1`
(first conjunct, the structure of `cacheSim`); the second sub-access is
always a hit — it bumps exactly the hit counter and reports "hit ", never a
miss and never an eviction — so the whole Modify adds at most one eviction
to the totals (last conjunct). -/
theorem modify_second_access_hits (cache : List (List CLine)) (stats : CacheStats)
    (tag setNumber clock policy : Int)
    (hlen : 1 ≤ (cache.getD setNumber.toNat []).length) :
    ∃ o1 : SurveyOut, o1 = surveySet (cache.getD setNumber.toNat []) stats tag clock policy ∧
    ∃ o2 : SurveyOut, o2 = surveySet o1.set o1.stats tag (clock + 1) policy ∧
      cacheSim cache stats tag setNumber clock 'M' policy =
        ((cache.set setNumber.toNat o1.set).set setNumber.toNat o2.set, o2.stats) ∧
      o2.stats = { o1.stats with hit_count := o1.stats.hit_count + 1 } ∧
      o2.result = "hit " ∧
      o2.stats.eviction_count ≤ stats.eviction_count + 1 := by
  refine ⟨_, rfl, _, rfl, ?_, ?_, ?_, ?_⟩
  · simp [cacheSim]
  · exact (surveySet_second_hit _ _ _ _ _ hlen _ _).1
  · exact (surveySet_second_hit _ _ _ _ _ hlen _ _).2
  · rw [(surveySet_second_hit _ _ _ _ _ hlen _ _).1]
    dsimp
    rcases surveySet_stats (cache.getD setNumber.toNat []) stats tag clock policy with
      h | h | h <;> rw [h] <;> dsimp <;> omega

/-- Witness for C3 at a concrete input: a Modify on an empty one-line set. -/
theorem modify_second_access_hits_witness :
    1 ≤ (([[initLine]] : List (List CLine)).getD (Int.toNat 0) []).length ∧
    (∃ o1 : SurveyOut, o1 = surveySet (([[initLine]] : List (List CLine)).getD
        (Int.toNat 0) []) ⟨0, 0, 0⟩ 7 1 0 ∧
     ∃ o2 : SurveyOut, o2 = surveySet o1.set o1.stats 7 (1 + 1) 0 ∧
      cacheSim [[initLine]] ⟨0, 0, 0⟩ 7 0 1 'M' 0 =
        (([[initLine]].set (Int.toNat 0) o1.set).set (Int.toNat 0) o2.set, o2.stats) ∧
      o2.stats = { o1.stats with hit_count := o1.stats.hit_count + 1 } ∧
      o2.result = "hit " ∧
      o2.stats.eviction_count ≤ (0 : Int) + 1) :=
  ⟨by decide, modify_second_access_hits [[initLine]] ⟨0, 0, 0⟩ 7 0 1 0 (by decide)⟩

/-- Claim C4: after replaying any record list, `hit_count + miss_count`
equals the total number of simulated sub-accesses, each record counting its
sub-access weight (two for Modify, one otherwise). -/
theorem hits_plus_misses_count_subaccesses (sbits bbits : Int) (perset : Nat)
    (policy : Int) (recs : List TraceRec) :
    (replayTrace sbits bbits perset policy recs).stats.hit_count +
      (replayTrace sbits bbits perset policy recs).stats.miss_count =
      (recs.map subAccessWeight).sum := by
  have h := foldl_hit_miss sbits bbits policy recs (initState sbits perset)
  simpa [replayTrace, initState] using h

/-- Claim C5: at every point of any replay the three counters are
non-negative and the eviction count never exceeds the miss count. -/
theorem counters_nonneg_evictions_le_misses (sbits bbits : Int) (perset : Nat)
    (policy : Int) (recs : List TraceRec) :
    0 ≤ (replayTrace sbits bbits perset policy recs).stats.hit_count ∧
    0 ≤ (replayTrace sbits bbits perset policy recs).stats.miss_count ∧
    0 ≤ (replayTrace sbits bbits perset policy recs).stats.eviction_count ∧
    (replayTrace sbits bbits perset policy recs).stats.eviction_count ≤
      (replayTrace sbits bbits perset policy recs).stats.miss_count := by
  have h0 : statsGood (initState sbits perset).stats := by
    refine ⟨le_refl 0, le_refl 0, le_refl 0, le_refl 0⟩
  exact foldl_statsGood sbits bbits policy recs (initState sbits perset) h0

/-- Claim C6: (1) no replay-reachable cache set ever holds more than
`perset` valid lines; (2) a lookup on an already-full set — all lines valid,
none holding the looked-up tag — records exactly one eviction (together with
exactly one miss). -/
theorem capacity_bound_and_full_set_evicts :
    (∀ (sbits bbits : Int) (perset : Nat) (policy : Int) (recs : List TraceRec)
        (j : Nat),
      validCount (((replayTrace sbits bbits perset policy recs).cache).getD j []) ≤
        perset) ∧
    (∀ (s : List CLine) (st : CacheStats) (tag clock policy : Int),
      (∀ x ∈ s, x.valid = true) → (∀ x ∈ s, x.tag ≠ tag) →
      (surveySet s st tag clock policy).stats.eviction_count = st.eviction_count + 1 ∧
      (surveySet s st tag clock policy).stats.miss_count = st.miss_count + 1) := by
  constructor
  · intro sbits bbits perset policy recs j
    by_cases hj : j < (replayTrace sbits bbits perset policy recs).cache.length
    · obtain ⟨_, hlen⟩ := replay_cacheGood sbits bbits perset policy recs _
        (getD_mem _ j [] hj)
      calc validCount (((replayTrace sbits bbits perset policy recs).cache).getD j [])
          ≤ (((replayTrace sbits bbits perset policy recs).cache).getD j []).length :=
            List.countP_le_length _
        _ = perset := hlen
    · rw [List.getD_eq_default _ _ (by omega)]
      simp [validCount]
  · intro s st tag clock policy hfull hnm
    have h := (surveySet_full_evict s st tag clock policy hfull hnm).1
    rw [h]
    exact ⟨rfl, rfl⟩

/-- Witness for C6 part 2 at a concrete input: a full 2-line set with tags
1 and 2, looked up with tag 3. -/
theorem capacity_bound_and_full_set_evicts_witness :
    (∀ x ∈ ([⟨true, 1, 1, 0⟩, ⟨true, 2, 2, 0⟩] : List CLine), x.valid = true) ∧
    (∀ x ∈ ([⟨true, 1, 1, 0⟩, ⟨true, 2, 2, 0⟩] : List CLine), x.tag ≠ 3) ∧
    ((surveySet [⟨true, 1, 1, 0⟩, ⟨true, 2, 2, 0⟩] ⟨0, 0, 0⟩ 3 3 0).stats.eviction_count
        = (0 : Int) + 1 ∧
     (surveySet [⟨true, 1, 1, 0⟩, ⟨true, 2, 2, 0⟩] ⟨0, 0, 0⟩ 3 3 0).stats.miss_count
        = (0 : Int) + 1) :=
  ⟨by decide, by decide,
   capacity_bound_and_full_set_evicts.2 [⟨true, 1, 1, 0⟩, ⟨true, 2, 2, 0⟩]
     ⟨0, 0, 0⟩ 3 3 0 (by decide) (by decide)⟩

/-- Claim C7, code behaviour at the failing input: with sbits = 8, bbits = 8
(tag width 48) and address 2^48, the code's `findTag` returns 0 — its mask
is computed on 32-bit `int`s, so the shift by 48 wraps to a shift by 16 and
the mask becomes 0xFFFF instead of 2^48 - 1 — while the documented formula
`(address >> (sbits+bbits)) & mask(64-sbits-bbits)` gives 2^32. -/
theorem findTag_mask_truncation :
    findTag 281474976710656 8 8 = 0 ∧
    specTagFormula 281474976710656 8 8 = 4294967296 :=
  ⟨by decide, by decide⟩

/-- Claim C8: (1) every replay-reachable cache set satisfies the state
invariant `SetInv` at its next lookup clock, so part (2) applies to every
lookup of a replay; (2) an LRU-policy lookup on a full set with no matching
tag evicts the valid line with the minimal `last_used` stamp — on a tie the
lowest line index, since the victim's stamp is strictly below every earlier
line's stamp — and overwrites it with the fresh tag; (3) concretely, with
capacity 2 and accesses to tags A = 10, B = 20, A, C = 30 on one set, the
access to C evicts B (index 1) and keeps A with its history. -/
theorem lru_evicts_least_recently_used :
    (∀ (sbits bbits : Int) (perset : Nat) (policy : Int) (recs : List TraceRec)
        (j : Nat),
      SetInv ((replayTrace sbits bbits perset policy recs).clock + 1)
        (((replayTrace sbits bbits perset policy recs).cache).getD j [])) ∧
    (∀ (s : List CLine) (st : CacheStats) (tag v : Int),
      s ≠ [] → (∀ x ∈ s, x.valid = true) → (∀ x ∈ s, x.tag ≠ tag) → SetInv v s →
      ∃ k, k < s.length ∧
        (∀ j2, j2 < s.length →
          (s.getD k initLine).recent ≤ (s.getD j2 initLine).recent) ∧
        (∀ j2, j2 < k → (s.getD k initLine).recent < (s.getD j2 initLine).recent) ∧
        surveySet s st tag v 0 =
          ⟨s.set k ⟨true, tag, v, 0⟩,
           { st with miss_count := st.miss_count + 1,
                     eviction_count := st.eviction_count + 1 }, "evict "⟩) ∧
    ((surveySet (surveySet (surveySet (surveySet (List.replicate 2 initLine)
        ⟨0, 0, 0⟩ 10 1 0).set ⟨0, 0, 0⟩ 20 2 0).set ⟨0, 0, 0⟩ 10 3 0).set
        ⟨0, 0, 0⟩ 30 4 0).set =
      [⟨true, 10, 3, 1⟩, ⟨true, 30, 4, 0⟩]) := by
  refine ⟨?_, ?_, by decide⟩
  · intro sbits bbits perset policy recs j
    by_cases hj : j < (replayTrace sbits bbits perset policy recs).cache.length
    · exact (replay_cacheGood sbits bbits perset policy recs _ (getD_mem _ j [] hj)).1
    · rw [List.getD_eq_default _ _ (by omega)]
      exact SetInv_nil _
  · exact fun s st tag v => surveySet_lru_victim s st tag v

/-- Witness for C8 part 2 at a concrete input: the set reached by A, B, A
(tags 10, 20, 10 at clocks 1, 2, 3), looked up with tag 30 at clock 4; the
victim index is 1 (line B, stamp 2). -/
theorem lru_evicts_least_recently_used_witness :
    ∃ k, k < ([⟨true, 10, 3, 1⟩, ⟨true, 20, 2, 0⟩] : List CLine).length ∧
      (∀ j2, j2 < ([⟨true, 10, 3, 1⟩, ⟨true, 20, 2, 0⟩] : List CLine).length →
        (([⟨true, 10, 3, 1⟩, ⟨true, 20, 2, 0⟩] : List CLine).getD k initLine).recent ≤
          (([⟨true, 10, 3, 1⟩, ⟨true, 20, 2, 0⟩] : List CLine).getD j2 initLine).recent) ∧
      (∀ j2, j2 < k →
        (([⟨true, 10, 3, 1⟩, ⟨true, 20, 2, 0⟩] : List CLine).getD k initLine).recent <
          (([⟨true, 10, 3, 1⟩, ⟨true, 20, 2, 0⟩] : List CLine).getD j2 initLine).recent) ∧
      surveySet [⟨true, 10, 3, 1⟩, ⟨true, 20, 2, 0⟩] ⟨0, 0, 0⟩ 30 4 0 =
        ⟨([⟨true, 10, 3, 1⟩, ⟨true, 20, 2, 0⟩] : List CLine).set k ⟨true, 30, 4, 0⟩,
         { (⟨0, 0, 0⟩ : CacheStats) with
             miss_count := (0 : Int) + 1, eviction_count := (0 : Int) + 1 },
         "evict "⟩ :=
  lru_evicts_least_recently_used.2.1 [⟨true, 10, 3, 1⟩, ⟨true, 20, 2, 0⟩]
    ⟨0, 0, 0⟩ 30 4 (by decide) (by decide) (by decide)
    ⟨by
      intro j hj i hij hvj
      simp only [List.length_cons, List.length_nil] at hj
      interval_cases j <;> interval_cases i <;> decide,
     by decide, by decide, by
      intro i hi j hj hvi hvj hri hrj
      simp only [List.length_cons, List.length_nil] at hi hj
      interval_cases i <;> interval_cases j <;>
        first
        | rfl
        | exact absurd hri (by decide)⟩

/-- Claim C9: (1) in every replay-reachable cache set, an invalid line still
holds its zero-initialised contents (in particular frequency 0), so part (2)
applies to every lookup of a replay; (2) a lookup that meets an invalid slot
after a run of valid, non-matching lines records exactly one miss, installs
exactly `{valid := true, tag, last_used := clock, frequency := 0}` into that
slot, and stops with no other line modified. -/
theorem miss_installs_fresh_line :
    (∀ (sbits bbits : Int) (perset : Nat) (policy : Int) (recs : List TraceRec)
        (j : Nat) (l : CLine),
      l ∈ ((replayTrace sbits bbits perset policy recs).cache).getD j [] →
      l.valid = false → l = initLine) ∧
    (∀ (s : List CLine) (st : CacheStats) (tag clock policy : Int) (k : Nat),
      k < s.length →
      (∀ l ∈ s, l.valid = false → l = initLine) →
      (∀ r, r < k → (s.getD r initLine).valid = true ∧ (s.getD r initLine).tag ≠ tag) →
      (s.getD k initLine).valid = false →
      surveySet s st tag clock policy =
        ⟨s.set k ⟨true, tag, clock, 0⟩,
         { st with miss_count := st.miss_count + 1 }, "miss "⟩) := by
  constructor
  · intro sbits bbits perset policy recs j l hl
    by_cases hj : j < (replayTrace sbits bbits perset policy recs).cache.length
    · exact (replay_cacheGood sbits bbits perset policy recs _
        (getD_mem _ j [] hj)).1.inv_zero l hl
    · rw [List.getD_eq_default _ _ (by omega)] at hl
      exact absurd hl (List.not_mem_nil l)
  · exact fun s st tag clock policy k => surveySet_install_at s st tag clock policy k

/-- Witness for C9 part 2 at a concrete input: a two-line set whose first
line is valid with tag 1 and whose second line is still empty, looked up
with tag 2 at clock 5. -/
theorem miss_installs_fresh_line_witness :
    (1 : Nat) < ([⟨true, 1, 1, 0⟩, initLine] : List CLine).length ∧
    surveySet [⟨true, 1, 1, 0⟩, initLine] ⟨0, 0, 0⟩ 2 5 0 =
      ⟨([⟨true, 1, 1, 0⟩, initLine] : List CLine).set 1 ⟨true, 2, 5, 0⟩,
       { (⟨0, 0, 0⟩ : CacheStats) with miss_count := (0 : Int) + 1 }, "miss "⟩ :=
  ⟨by decide,
   miss_installs_fresh_line.2 [⟨true, 1, 1, 0⟩, initLine] ⟨0, 0, 0⟩ 2 5 0 1
     (by decide) (by decide) (by decide) (by decide)⟩

/-- Claim C10: (1) in every replay-reachable cache set the valid lines form
a contiguous front of the line array: if a line is valid, so is every line
at a smaller index; (2) a line that is valid never becomes invalid — any
further lookup leaves it valid. -/
theorem valid_lines_form_front :
    (∀ (sbits bbits : Int) (perset : Nat) (policy : Int) (recs : List TraceRec)
        (j j2 i : Nat),
      j2 < (((replayTrace sbits bbits perset policy recs).cache).getD j []).length →
      i ≤ j2 →
      (((((replayTrace sbits bbits perset policy recs).cache).getD j []).getD j2
        initLine).valid = true) →
      (((((replayTrace sbits bbits perset policy recs).cache).getD j []).getD i
        initLine).valid = true)) ∧
    (∀ (s : List CLine) (st : CacheStats) (tag clock policy : Int) (i : Nat),
      (s.getD i initLine).valid = true →
      (((surveySet s st tag clock policy).set).getD i initLine).valid = true) := by
  constructor
  · intro sbits bbits perset policy recs j j2 i hj2 hij hv
    by_cases hj : j < (replayTrace sbits bbits perset policy recs).cache.length
    · exact (replay_cacheGood sbits bbits perset policy recs _
        (getD_mem _ j [] hj)).1.front j2 hj2 i hij hv
    · rw [List.getD_eq_default _ _ (by omega)] at hj2
      exact absurd hj2 (by simp)
  · exact fun s st tag clock policy i => surveySet_valid_mono s st tag clock policy i

/-- Witness for C10 at a concrete input: in the set reached by installing
tag 1, line 1 being valid forces line 0 valid (part 1 shape via part 2):
a hit lookup keeps line 0 valid. -/
theorem valid_lines_form_front_witness :
    ((([⟨true, 1, 1, 0⟩, initLine] : List CLine).getD 0 initLine).valid = true) ∧
    ((((surveySet [⟨true, 1, 1, 0⟩, initLine] ⟨0, 0, 0⟩ 2 5 0).set).getD 0
      initLine).valid = true) :=
  ⟨by decide,
   valid_lines_form_front.2 [⟨true, 1, 1, 0⟩, initLine] ⟨0, 0, 0⟩ 2 5 0 0 (by decide)⟩
